import Mathlib

/-!
Verification development for the question-tagging and longitudinal-analytics
engine of the `zai_fi` repository.  Python functions from
`daksh_app/ml_service.py`, `daksh_app/longitudinal.py`,
`daksh_app/ai_tagging.py` and `daksh_app/neo4j_service.py` are shallowly
embedded as executable Lean definitions (floats become `ℚ`, the graph store
becomes explicit lists of nodes/edges, fallible calls become `Option`), and
the behavioural claims of the specification are proved or refuted against
those definitions.
-/

namespace ZaiFi

/-! ## Outcome vocabulary

`outcome ∈ {correct, incorrect, skipped}` is the closed attempt vocabulary of
the data model (`AttemptRel.outcome`); Python compares the strings directly.
-/

inductive Outcome where
  | correct
  | incorrect
  | skipped
deriving DecidableEq, Repr

/-! ## Trend slope (`ml_service._slope_from_points`, `longitudinal._slope_from_points`) -/

/-- Embedded from `ml_service._slope_from_points` (ml_service.py lines 6-18):
the computational form of the least-squares slope on `(x, y)` points, with
`0.0` returned for fewer than two points or a zero denominator. -/
def slopeFromPoints (points : List (ℚ × ℚ)) : ℚ :=
  if points.length < 2 then 0
  else
    let n : ℚ := points.length
    let sumX := (points.map Prod.fst).sum
    let sumY := (points.map Prod.snd).sum
    let sumXX := (points.map (fun p => p.1 * p.1)).sum
    let sumXY := (points.map (fun p => p.1 * p.2)).sum
    let denom := n * sumXX - sumX * sumX
    if denom = 0 then 0 else (n * sumXY - sumX * sumY) / denom

/-- The x-series `0..n-1` used by both slope implementations
(`xs = list(range(n))` in longitudinal.py, `enumerate` in ml_service.py). -/
def rangeCast (n : Nat) : List ℚ :=
  List.map (fun i : Nat => (i : ℚ)) (List.range n)

/-- Embedded from `longitudinal._slope_from_points` (longitudinal.py lines
101-114): the mean-centered ordinary-least-squares slope of the y-values
against x = 0..n-1.  This is the textbook OLS slope formula, so it doubles as
the specification-side definition of "ordinary least-squares slope of accuracy
against exam sequence index". -/
def centeredSlope (ys : List ℚ) : ℚ :=
  if ys.length < 2 then 0
  else
    let n : ℚ := ys.length
    let xs := rangeCast ys.length
    let xMean := xs.sum / n
    let yMean := ys.sum / n
    let num := ((xs.zip ys).map (fun p => (p.1 - xMean) * (p.2 - yMean))).sum
    let den := (xs.map (fun x => (x - xMean) * (x - xMean))).sum
    if den ≠ 0 then num / den else 0

/-- The per-exam accuracy list turned into indexed points, as
`run_student_analysis` does with
`points = [(i, e['accuracy']) for i, e in enumerate(exams)]`
(ml_service.py line 39). -/
def indexPoints (ys : List ℚ) : List (ℚ × ℚ) :=
  (rangeCast ys.length).zip ys

/-- Trend labels assigned by `run_student_analysis` (ml_service.py lines
41-46). -/
inductive Trend where
  | improving
  | declining
  | volatile
deriving DecidableEq, Repr

/-- Embedded from `run_student_analysis` (ml_service.py lines 41-46):
`slope > 0.01 → Improving`, `slope < -0.01 → Declining`, else `Volatile`. -/
def trendLabel (slope : ℚ) : Trend :=
  if slope > 1/100 then Trend.improving
  else if slope < -(1/100) then Trend.declining
  else Trend.volatile

/-- The trend label computed by `run_student_analysis` from the ordered
per-exam accuracies. -/
def trendOfAccuracies (ys : List ℚ) : Trend :=
  trendLabel (slopeFromPoints (indexPoints ys))

theorem rangeCast_length (n : Nat) : (rangeCast n).length = n := by
  rw [rangeCast, List.length_map, List.length_range]

-- Algebraic helper: expanding a centered cross-product sum.
theorem sum_centered_mul (a b : ℚ) :
    ∀ (xs ys : List ℚ), xs.length = ys.length →
      ((xs.zip ys).map (fun p => (p.1 - a) * (p.2 - b))).sum
        = ((xs.zip ys).map (fun p => p.1 * p.2)).sum
            - a * ys.sum - b * xs.sum + (xs.length : ℚ) * a * b := by
  intro xs
  induction xs with
  | nil =>
    intro ys h
    have : ys = [] := List.length_eq_zero.mp h.symm
    subst this
    simp
  | cons x xs ih =>
    intro ys h
    cases ys with
    | nil => simp at h
    | cons y ys =>
      have hlen : xs.length = ys.length := by
        simpa using h
      have hrec := ih ys hlen
      simp only [List.zip_cons_cons, List.map_cons, List.sum_cons, List.length_cons, hrec]
      push_cast
      ring

-- Algebraic helper: expanding a centered square sum.
theorem sum_centered_sq (a : ℚ) :
    ∀ (xs : List ℚ),
      (xs.map (fun x => (x - a) * (x - a))).sum
        = (xs.map (fun x => x * x)).sum - 2 * a * xs.sum + (xs.length : ℚ) * a * a := by
  intro xs
  induction xs with
  | nil => simp
  | cons x xs ih =>
    simp only [List.map_cons, List.sum_cons, List.length_cons, ih]
    push_cast
    ring

-- Projections of a zipped list of equal-length components.
theorem zip_map_fst_mul (xs ys : List ℚ) (h : xs.length = ys.length) :
    ((xs.zip ys).map (fun p => p.1 * p.1)).sum = (xs.map (fun x => x * x)).sum := by
  induction xs generalizing ys with
  | nil => simp
  | cons x xs ih =>
    cases ys with
    | nil => simp at h
    | cons y ys =>
      have hlen : xs.length = ys.length := by simpa using h
      simp [ih ys hlen]

theorem zip_map_fst_sum (xs ys : List ℚ) (h : xs.length = ys.length) :
    ((xs.zip ys).map Prod.fst).sum = xs.sum := by
  rw [List.map_fst_zip xs ys (le_of_eq h)]

theorem zip_map_snd_sum (xs ys : List ℚ) (h : xs.length = ys.length) :
    ((xs.zip ys).map Prod.snd).sum = ys.sum := by
  rw [List.map_snd_zip xs ys (le_of_eq h.symm)]

/-- The computational slope of `ml_service` on zipped points coincides with
the mean-centered OLS quotient on the same series, whenever the x and y
series have equal length at least 2.  (Division by a zero denominator is `0`
in `ℚ`, matching both Python guards.) -/
theorem slopeFromPoints_zip_eq (xs ys : List ℚ) (h : xs.length = ys.length)
    (hn : 2 ≤ xs.length) :
    slopeFromPoints (xs.zip ys)
      = (((xs.zip ys).map
            (fun p => (p.1 - xs.sum / (xs.length : ℚ)) * (p.2 - ys.sum / (xs.length : ℚ)))).sum)
        / ((xs.map
            (fun x => (x - xs.sum / (xs.length : ℚ)) * (x - xs.sum / (xs.length : ℚ)))).sum) := by
  have hzlen : (xs.zip ys).length = xs.length := by
    rw [List.length_zip, h, min_self]
  have hnq : ((xs.length : ℚ)) ≠ 0 := by
    have hx : xs.length ≠ 0 := by omega
    exact_mod_cast hx
  have hnotlt : ¬ (xs.zip ys).length < 2 := by
    rw [hzlen]; omega
  simp only [slopeFromPoints, if_neg hnotlt]
  rw [hzlen, zip_map_fst_sum xs ys h, zip_map_snd_sum xs ys h, zip_map_fst_mul xs ys h]
  set n : ℚ := (xs.length : ℚ) with hn_def
  set Sx := xs.sum with hSx
  set Sy := ys.sum with hSy
  set Sxx := (xs.map (fun x => x * x)).sum with hSxx
  set Sxy := ((xs.zip ys).map (fun p => p.1 * p.2)).sum with hSxy
  have hnum2 : n * (((xs.zip ys).map
      (fun p => (p.1 - Sx / n) * (p.2 - Sy / n))).sum) = n * Sxy - Sx * Sy := by
    rw [sum_centered_mul (Sx / n) (Sy / n) xs ys h]
    rw [← hSx, ← hSy, ← hSxy, ← hn_def]
    field_simp
    ring
  have hden2 : n * ((xs.map (fun x => (x - Sx / n) * (x - Sx / n))).sum)
      = n * Sxx - Sx * Sx := by
    rw [sum_centered_sq (Sx / n) xs]
    rw [← hSx, ← hSxx, ← hn_def]
    field_simp
    ring
  by_cases hd : n * Sxx - Sx * Sx = 0
  · have hcden : (xs.map (fun x => (x - Sx / n) * (x - Sx / n))).sum = 0 := by
      have h0 : n * ((xs.map (fun x => (x - Sx / n) * (x - Sx / n))).sum) = 0 := by
        rw [hden2, hd]
      exact (mul_eq_zero.mp h0).resolve_left hnq
    rw [hcden]
    simp [hd]
  · have := mul_div_mul_left
      (((xs.zip ys).map (fun p => (p.1 - Sx / n) * (p.2 - Sy / n))).sum)
      ((xs.map (fun x => (x - Sx / n) * (x - Sx / n))).sum) hnq
    rw [if_neg hd, ← this, hnum2, hden2]

/-- The slope used by `run_student_analysis` equals the mean-centered OLS
slope of the accuracy series computed by `longitudinal`. -/
theorem slope_indexPoints_eq_centered (ys : List ℚ) :
    slopeFromPoints (indexPoints ys) = centeredSlope ys := by
  by_cases h2 : ys.length < 2
  · have hzlen : (indexPoints ys).length = ys.length := by
      rw [indexPoints, List.length_zip, rangeCast_length, min_self]
    rw [slopeFromPoints, if_pos (by rw [hzlen]; exact h2),
      centeredSlope, if_pos h2]
  · have hlen : (rangeCast ys.length).length = ys.length := rangeCast_length ys.length
    have h2' : 2 ≤ (rangeCast ys.length).length := by
      rw [hlen]; omega
    rw [indexPoints, slopeFromPoints_zip_eq (rangeCast ys.length) ys hlen h2']
    simp only [centeredSlope, if_neg h2, rangeCast_length]
    by_cases hden : ((rangeCast ys.length).map
        (fun x => (x - (rangeCast ys.length).sum / (ys.length : ℚ))
          * (x - (rangeCast ys.length).sum / (ys.length : ℚ)))).sum = 0
    · rw [hden]
      simp
    · rw [if_pos hden]

/-- Claim C5: the trend slope of `run_student_analysis` is the ordinary
least-squares slope of per-exam accuracy against the exam sequence index
0..n-1, returning 0.0 for fewer than 2 exams; on accuracies [0.4, 0.8] the
slope is positive with label Improving, on [0.8, 0.4] negative with label
Declining, and on [0.5, 0.5] exactly 0.0 with label Volatile. -/
theorem C5_trend_slope :
    (∀ points : List (ℚ × ℚ), points.length < 2 → slopeFromPoints points = 0)
    ∧ (∀ ys : List ℚ, slopeFromPoints (indexPoints ys) = centeredSlope ys)
    ∧ (0 < slopeFromPoints (indexPoints [2/5, 4/5])
        ∧ trendOfAccuracies [2/5, 4/5] = Trend.improving)
    ∧ (slopeFromPoints (indexPoints [4/5, 2/5]) < 0
        ∧ trendOfAccuracies [4/5, 2/5] = Trend.declining)
    ∧ (slopeFromPoints (indexPoints [1/2, 1/2]) = 0
        ∧ trendOfAccuracies [1/2, 1/2] = Trend.volatile) := by
  refine ⟨?_, slope_indexPoints_eq_centered, ?_, ?_, ?_⟩
  · intro points h
    rw [slopeFromPoints, if_pos h]
  · have h : slopeFromPoints (indexPoints [2/5, 4/5]) = 2/5 := by
      norm_num [slopeFromPoints, indexPoints, rangeCast, List.range_succ]
    refine ⟨by rw [h]; norm_num, ?_⟩
    rw [trendOfAccuracies, h, trendLabel]
    norm_num
  · have h : slopeFromPoints (indexPoints [4/5, 2/5]) = -(2/5) := by
      norm_num [slopeFromPoints, indexPoints, rangeCast, List.range_succ]
    refine ⟨by rw [h]; norm_num, ?_⟩
    rw [trendOfAccuracies, h, trendLabel]
    norm_num
  · have h : slopeFromPoints (indexPoints [1/2, 1/2]) = 0 := by
      norm_num [slopeFromPoints, indexPoints, rangeCast, List.range_succ]
    refine ⟨h, ?_⟩
    rw [trendOfAccuracies, h, trendLabel]
    norm_num

/-- Witness for C5: the fewer-than-two-exams branch at a concrete input. -/
theorem C5_trend_slope_witness : slopeFromPoints [((0 : ℚ), (1 : ℚ))] = 0 :=
  C5_trend_slope.1 [((0 : ℚ), (1 : ℚ))] (by decide)

/-! ## Cohort concept-failure alert (`ml_service.run_cohort_analysis`, lines 163-186)

The Cypher query groups the cohort members' attempts by (student, concept),
so a member appears in a concept's entry list exactly when it has at least
one attempt on that concept.  The subsequent Python aggregation is embedded
below starting from the flat attempt records.
-/

/-- One attempt row by a cohort member: student id, name of the concept the
attempted question tests, and the outcome. -/
structure CohortAttempt where
  sid : Nat
  conceptName : String
  outcome : Outcome
deriving DecidableEq, Repr

/-- The distinct cohort members with at least one attempt on concept `c`
(the `sid` keys produced by the grouped Cypher query). -/
def attemptingSids (atts : List CohortAttempt) (c : String) : List Nat :=
  ((atts.filter (fun a => a.conceptName = c)).map (fun a => a.sid)).dedup

/-- Per-student per-concept accuracy as the grouped query and
`acc = float(correct) / total if total else 1.0` compute it. -/
def conceptAccuracy (atts : List CohortAttempt) (sid : Nat) (c : String) : ℚ :=
  let rows := atts.filter (fun a => a.sid = sid ∧ a.conceptName = c)
  let total := rows.length
  let correctCount := rows.countP (fun a => a.outcome = Outcome.correct)
  if total ≠ 0 then (correctCount : ℚ) / (total : ℚ) else 1

/-- The `(sid, acc)` entry list built per concept (ml_service.py lines
172-176). -/
def conceptEntries (atts : List CohortAttempt) (c : String) : List (Nat × ℚ) :=
  (attemptingSids atts c).map (fun sid => (sid, conceptAccuracy atts sid c))

/-- Embedded from ml_service.py lines 179-186: the concept alert fires when
the entry list is nonempty and `failing_count / student_count > 0.4`, where a
member fails with per-concept accuracy `< 0.5`. -/
def conceptAlertFires (atts : List CohortAttempt) (c : String) : Bool :=
  let entries := conceptEntries atts c
  let failingCount := entries.countP (fun e => e.2 < 1/2)
  let studentCount := entries.length
  let failingRatio : ℚ :=
    if studentCount ≠ 0 then (failingCount : ℚ) / (studentCount : ℚ) else 0
  decide (studentCount ≠ 0) && decide (failingRatio > 2/5)

/-- Five members, each with one attempt on "Algebra"; members 1-3 fail it. -/
def alertExample3of5 : List CohortAttempt :=
  [⟨1, "Algebra", Outcome.incorrect⟩, ⟨2, "Algebra", Outcome.incorrect⟩,
   ⟨3, "Algebra", Outcome.incorrect⟩, ⟨4, "Algebra", Outcome.correct⟩,
   ⟨5, "Algebra", Outcome.correct⟩]

/-- Five members, each with one attempt on "Algebra"; members 1-2 fail it. -/
def alertExample2of5 : List CohortAttempt :=
  [⟨1, "Algebra", Outcome.incorrect⟩, ⟨2, "Algebra", Outcome.incorrect⟩,
   ⟨3, "Algebra", Outcome.correct⟩, ⟨4, "Algebra", Outcome.correct⟩,
   ⟨5, "Algebra", Outcome.correct⟩]

/-- Claim C6: the concept-failure alert fires iff the fraction of attempting
cohort members whose per-concept accuracy is below 0.5 is strictly greater
than 0.4; it fires at 3 failing members of 5 and not at exactly 2 of 5. -/
theorem C6_cohort_alert :
    (∀ (atts : List CohortAttempt) (c : String),
      conceptAlertFires atts c = true ↔
        (attemptingSids atts c ≠ [] ∧
          (((attemptingSids atts c).countP
              (fun sid => conceptAccuracy atts sid c < 1/2) : ℚ)
            / ((attemptingSids atts c).length : ℚ) > 2/5)))
    ∧ conceptAlertFires alertExample3of5 "Algebra" = true
    ∧ conceptAlertFires alertExample2of5 "Algebra" = false := by
  refine ⟨?_, ?_, ?_⟩
  case refine_2 =>
    simp [conceptAlertFires, conceptEntries, attemptingSids, conceptAccuracy,
      alertExample3of5, List.countP_cons, List.countP_nil]
    norm_num
  case refine_3 =>
    simp [conceptAlertFires, conceptEntries, attemptingSids, conceptAccuracy,
      alertExample2of5, List.countP_cons, List.countP_nil]
    norm_num
  intro atts c
  have hcount : (conceptEntries atts c).countP (fun e => e.2 < 1/2)
      = (attemptingSids atts c).countP (fun sid => conceptAccuracy atts sid c < 1/2) := by
    rw [conceptEntries, List.countP_map]
    rfl
  have hlen : (conceptEntries atts c).length = (attemptingSids atts c).length := by
    rw [conceptEntries, List.length_map]
  constructor
  · intro h
    rw [conceptAlertFires] at h
    simp only [Bool.and_eq_true, decide_eq_true_eq] at h
    obtain ⟨hne, hgt⟩ := h
    have hne' : attemptingSids atts c ≠ [] := by
      intro h0
      rw [hlen, h0] at hne
      exact hne rfl
    refine ⟨hne', ?_⟩
    rw [if_pos hne, hcount, hlen] at hgt
    exact hgt
  · intro ⟨hne, hgt⟩
    rw [conceptAlertFires]
    simp only [Bool.and_eq_true, decide_eq_true_eq]
    have hlen0 : (conceptEntries atts c).length ≠ 0 := by
      rw [hlen]
      intro h0
      exact hne (List.length_eq_zero.mp h0)
    refine ⟨hlen0, ?_⟩
    rw [if_pos hlen0, hcount, hlen]
    exact hgt

/-- Witness for C6: the characterization applied at the 3-of-5 example. -/
theorem C6_cohort_alert_witness :
    attemptingSids alertExample3of5 "Algebra" ≠ [] ∧
      (((attemptingSids alertExample3of5 "Algebra").countP
          (fun sid => conceptAccuracy alertExample3of5 sid "Algebra" < 1/2) : ℚ)
        / ((attemptingSids alertExample3of5 "Algebra").length : ℚ) > 2/5) :=
  (C6_cohort_alert.1 alertExample3of5 "Algebra").mp (by
    simp [conceptAlertFires, conceptEntries, attemptingSids, conceptAccuracy,
      alertExample3of5, List.countP_cons, List.countP_nil]
    norm_num)

/-! ## Leaderboard segmentation (`ml_service.run_cohort_analysis`, lines 188-211)

The Cypher query filters members with `WHERE total > $min_attempts` where
`min_attempts = 5`, then the Python loop buckets the survivors by accuracy.
The `ORDER BY accuracy DESC` clause only orders rows and cannot change which
bucket a member lands in, so it is not modelled.
-/

/-- A cohort member's aggregate attempt counts as returned per row by the
leaderboard query. -/
structure MemberStat where
  sid : Nat
  correct : Nat
  total : Nat
deriving DecidableEq, Repr

/-- `CASE WHEN total=0 THEN 0.0 ELSE toFloat(correct)/total END`. -/
def memberAccuracy (m : MemberStat) : ℚ :=
  if m.total = 0 then 0 else (m.correct : ℚ) / (m.total : ℚ)

/-- `min_attempts = 5` (ml_service.py line 197). -/
def minAttempts : Nat := 5

structure Leaderboard where
  topPerformers : List Nat
  stable : List Nat
  atRisk : List Nat
deriving DecidableEq, Repr

/-- One iteration of the bucketing loop (ml_service.py lines 202-209). -/
def lbStep (lb : Leaderboard) (m : MemberStat) : Leaderboard :=
  if memberAccuracy m > 4/5 then
    { lb with topPerformers := lb.topPerformers ++ [m.sid] }
  else if memberAccuracy m ≥ 1/2 then
    { lb with stable := lb.stable ++ [m.sid] }
  else
    { lb with atRisk := lb.atRisk ++ [m.sid] }

/-- Embedded from ml_service.py lines 188-211: filter members with
`total > min_attempts`, then bucket by accuracy. -/
def runLeaderboard (stats : List MemberStat) : Leaderboard :=
  (stats.filter (fun m => minAttempts < m.total)).foldl lbStep ⟨[], [], []⟩

/-- A member lands in `top_performers`: accuracy strictly above 0.8. -/
def isTop (m : MemberStat) : Bool := decide (memberAccuracy m > 4/5)

/-- A member lands in `stable`: not top, accuracy at least 0.5. -/
def isStable (m : MemberStat) : Bool := !isTop m && decide (memberAccuracy m ≥ 1/2)

/-- A member lands in `at_risk`: not top, accuracy below 0.5. -/
def isRisk (m : MemberStat) : Bool := !isTop m && !(decide (memberAccuracy m ≥ 1/2))

theorem foldl_lbStep (l : List MemberStat) :
    ∀ lb : Leaderboard,
      l.foldl lbStep lb =
        ⟨lb.topPerformers ++ (l.filter isTop).map (fun m => m.sid),
         lb.stable ++ (l.filter isStable).map (fun m => m.sid),
         lb.atRisk ++ (l.filter isRisk).map (fun m => m.sid)⟩ := by
  induction l with
  | nil => intro lb; simp
  | cons m l ih =>
    intro lb
    by_cases h1 : memberAccuracy m > 4/5
    · have ht : isTop m = true := by
        rw [isTop, decide_eq_true h1]
      have hs : isStable m = false := by
        rw [isStable, ht]
        rfl
      have hr : isRisk m = false := by
        rw [isRisk, ht]
        rfl
      rw [List.foldl_cons, lbStep, if_pos h1, ih,
        List.filter_cons, List.filter_cons, List.filter_cons, ht, hs, hr]
      simp
    · have ht : isTop m = false := by
        rw [isTop, decide_eq_false h1]
      by_cases h2 : memberAccuracy m ≥ 1/2
      · have hs : isStable m = true := by
          rw [isStable, ht, decide_eq_true h2]
          rfl
        have hr : isRisk m = false := by
          rw [isRisk, ht, decide_eq_true h2]
          rfl
        rw [List.foldl_cons, lbStep, if_neg h1, if_pos h2, ih,
          List.filter_cons, List.filter_cons, List.filter_cons, ht, hs, hr]
        simp
      · have hs : isStable m = false := by
          rw [isStable, ht, decide_eq_false h2]
          rfl
        have hr : isRisk m = true := by
          rw [isRisk, ht, decide_eq_false h2]
          rfl
        rw [List.foldl_cons, lbStep, if_neg h1, if_neg h2, ih,
          List.filter_cons, List.filter_cons, List.filter_cons, ht, hs, hr]
        simp

/-- Counterexample to claim C7: a member with exactly 5 total attempts (and
accuracy 0.8, which the claim would place in the `stable` bucket) appears in
no bucket at all, because the query keeps only members with `total > 5`. -/
theorem C7_counterexample :
    ¬ (1 ∈ (runLeaderboard [⟨1, 4, 5⟩]).topPerformers
      ∨ 1 ∈ (runLeaderboard [⟨1, 4, 5⟩]).stable
      ∨ 1 ∈ (runLeaderboard [⟨1, 4, 5⟩]).atRisk) := by
  decide

/-- Claim C7 (amended): `run_cohort_analysis` excludes from the leaderboard
exactly those members with at most 5 total attempts (i.e. fewer than 6), and
buckets every remaining member by accuracy into top (> 0.8), stable
(0.5 ≤ accuracy ≤ 0.8) or at-risk (< 0.5); a member with exactly 5 attempts
is excluded. -/
theorem C7_leaderboard_amended (stats : List MemberStat) :
    runLeaderboard stats =
      ⟨((stats.filter (fun m => 5 < m.total)).filter isTop).map (fun m => m.sid),
       ((stats.filter (fun m => 5 < m.total)).filter isStable).map (fun m => m.sid),
       ((stats.filter (fun m => 5 < m.total)).filter isRisk).map (fun m => m.sid)⟩ := by
  rw [runLeaderboard, foldl_lbStep]
  rfl

/-! ## Repeated mistakes (`longitudinal.analyze_student`, lines 44-86)

`analyze_student` walks the attempts; for every attempt whose outcome is not
the string 'correct' it increments a per-concept counter for each concept
linked to the attempted question, and `repeated_mistakes` counts the
concepts whose counter exceeds 1.  Note the `else` branch captures both
'incorrect' and 'skipped' outcomes.
-/

/-- One attempt by the analyzed student: the outcome and the names of the
concepts linked to the attempted question (`q.topics.all()`). -/
structure StudentAttempt where
  outcome : Outcome
  concepts : List String
deriving DecidableEq, Repr

/-- Concept-name occurrences across attempts whose outcome is not 'correct'
(the `else` branch of longitudinal.py lines 51-56). -/
def nonCorrectConceptOccurrences (atts : List StudentAttempt) : List String :=
  (atts.filter (fun a => ¬ a.outcome = Outcome.correct)).flatMap (fun a => a.concepts)

/-- The counter `incorrect_by_concept[c]` after the loop. -/
def incorrectByConcept (atts : List StudentAttempt) (c : String) : Nat :=
  (nonCorrectConceptOccurrences atts).count c

/-- Embedded from longitudinal.py line 86:
`repeated_mistakes = sum(1 for v in incorrect_by_concept.values() if v > 1)`. -/
def repeatedMistakes (atts : List StudentAttempt) : Nat :=
  ((nonCorrectConceptOccurrences atts).dedup).countP
    (fun c => 1 < incorrectByConcept atts c)

/-- Modelled from the spec: `repeated_mistakes` counts distinct concepts with
more than one attempt whose outcome is exactly `incorrect`; `skipped` and
`correct` attempts contribute nothing (spec §3 StudentSummary and §4.5). -/
def repeatedMistakesSpec (atts : List StudentAttempt) : Nat :=
  let occ := (atts.filter (fun a => a.outcome = Outcome.incorrect)).flatMap
    (fun a => a.concepts)
  (occ.dedup).countP (fun c => 1 < occ.count c)

/-- A student who skipped two questions testing the same concept. -/
def twoSkippedSameConcept : List StudentAttempt :=
  [⟨Outcome.skipped, ["Algebra"]⟩, ⟨Outcome.skipped, ["Algebra"]⟩]

/-- Claim C8 is contradicted by the code: two `skipped` attempts on the same
concept make `analyze_student` report `repeated_mistakes = 1`, while the
claim (and the code's own comments, "collect concepts for incorrect
attempts") require 0 because no attempt has outcome `incorrect`. -/
theorem C8_skipped_counted_as_mistake :
    repeatedMistakes twoSkippedSameConcept = 1
      ∧ repeatedMistakesSpec twoSkippedSameConcept = 0 := by
  decide

/-! ## Attempt time storage and averaging (`neo4j_service.create_attempt`,
`get_student_performance_summary`) -/

/-- An `ATTEMPTED` edge as stored by `create_attempt` (neo4j_service.py lines
202-206): the optional `time_spent_seconds` is stored as given — `None` is
valid and is not coerced. -/
structure AttemptEdge where
  outcome : Outcome
  timeSpentSeconds : Option ℚ
deriving DecidableEq, Repr

/-- Embedded from `create_attempt`: connect a new attempt edge carrying the
outcome and the optional time verbatim. -/
def createAttempt (atts : List AttemptEdge) (o : Outcome) (t : Option ℚ) :
    List AttemptEdge :=
  atts ++ [⟨o, t⟩]

/-- Embedded from `get_student_performance_summary` (neo4j_service.py lines
283-285): only attempts with a present time enter both the numerator and the
denominator of the average. -/
def avgTimeSeconds (atts : List AttemptEdge) : Option ℚ :=
  let timed := atts.filter (fun a => a.timeSpentSeconds.isSome)
  if timed.length ≠ 0 then
    some (((timed.map (fun a => a.timeSpentSeconds.getD 0)).sum) / (timed.length : ℚ))
  else none

/-- Claim C9: an attempt recorded without `time_spent_seconds` keeps the
absence in the stored edge (never coerced to 0), and the average-time
computation ignores such attempts in both sum and count; concretely, one
attempt of 10 seconds plus one absent-time attempt average to 10, not 5. -/
theorem C9_time_absence :
    (∀ (atts : List AttemptEdge) (o : Outcome) (t : Option ℚ),
      (createAttempt atts o t).map (fun a => a.timeSpentSeconds)
        = atts.map (fun a => a.timeSpentSeconds) ++ [t])
    ∧ (∀ (atts : List AttemptEdge) (o : Outcome),
      avgTimeSeconds (createAttempt atts o none) = avgTimeSeconds atts)
    ∧ avgTimeSeconds [⟨Outcome.correct, some 10⟩, ⟨Outcome.correct, none⟩]
        = some 10 := by
  refine ⟨?_, ?_, ?_⟩
  · intro atts o t
    simp [createAttempt]
  · intro atts o
    simp [avgTimeSeconds, createAttempt, List.filter_append]
  · simp [avgTimeSeconds]

/-! ## Question creation and client tag linking
(`neo4j_service.create_question_if_not_exists`, `_link_question_tags`) -/

/-- Python truthiness of an optional string argument (absent or empty means
falsy), as used by `bool(concept_name and skill_name and difficulty_name)`
and the `if concept_name:` guards. -/
def pyTruthy : Option String → Bool
  | none => false
  | some s => !(s == "")

/-- A tag edge under the production schema written by `_link_question_tags`
(TESTS_CONCEPT / REQUIRES_SKILL / HAS_DIFFICULTY with `confidence_score`,
`tag_source`, `version`, `model_id`). -/
structure SchemaTagEdge where
  target : String
  tagSource : String
  confidenceScore : ℚ
  version : Nat
  modelId : Option String
deriving DecidableEq, Repr

/-- The question node state touched by `create_question_if_not_exists`,
with its three production tag-edge lists. -/
structure SchemaQuestion where
  text : String
  needsAiTagging : Bool
  taggingStatus : String
  conceptEdges : List SchemaTagEdge
  skillEdges : List SchemaTagEdge
  difficultyEdges : List SchemaTagEdge
deriving DecidableEq, Repr

/-- Embedded from `_link_question_tags` (neo4j_service.py lines 119-175):
each provided name is resolved and connected with confidence 1.0 for client
source (0.8 otherwise), version 1 and the given model id. -/
def linkQuestionTags (q : SchemaQuestion)
    (conceptName skillName difficultyName : Option String)
    (tagSource : String) (modelId : Option String) : SchemaQuestion :=
  let conf : ℚ := if tagSource = "client" then 1 else 4/5
  let q1 := if pyTruthy conceptName then
      { q with conceptEdges :=
          q.conceptEdges ++ [⟨conceptName.getD "", tagSource, conf, 1, modelId⟩] }
    else q
  let q2 := if pyTruthy skillName then
      { q1 with skillEdges :=
          q1.skillEdges ++ [⟨skillName.getD "", tagSource, conf, 1, modelId⟩] }
    else q1
  if pyTruthy difficultyName then
    { q2 with difficultyEdges :=
        q2.difficultyEdges ++ [⟨difficultyName.getD "", tagSource, conf, 1, modelId⟩] }
  else q2

/-- The question looked up or freshly created by
`create_question_if_not_exists` (neo4j_service.py lines 79-88). -/
def baseQuestion (existing : Option SchemaQuestion) (text : String) : SchemaQuestion :=
  match existing with
  | some q => q
  | none => ⟨text, false, "untagged", [], [], []⟩

/-- Embedded from `create_question_if_not_exists` (neo4j_service.py lines
65-116): tags are linked only when all three names are truthy
(`has_tags = bool(concept_name and skill_name and difficulty_name)`);
otherwise the question is flagged for AI tagging.  Returns the saved
question and the `needs_ai_tagging` flag of the result dict. -/
def createQuestionIfNotExists (existing : Option SchemaQuestion) (text : String)
    (conceptName skillName difficultyName : Option String)
    (tagSource : String) : SchemaQuestion × Bool :=
  let q := baseQuestion existing text
  let hasTags := pyTruthy conceptName && pyTruthy skillName && pyTruthy difficultyName
  if hasTags then
    let q1 := linkQuestionTags q conceptName skillName difficultyName tagSource none
    ({ q1 with taggingStatus := "tagged", needsAiTagging := false }, false)
  else
    ({ q with needsAiTagging := true, taggingStatus := "untagged" }, true)

/-- Claim C10: when only a proper subset of the three tag names is provided
(at least one present, at least one missing), no tag edge at all is created —
the provided names are discarded — and the question is left with
`needs_ai_tagging = true` and `tagging_status = 'untagged'`. -/
theorem C10_partial_tags_discarded
    (existing : Option SchemaQuestion) (text : String)
    (conceptName skillName difficultyName : Option String) (tagSource : String)
    (_hsome : (pyTruthy conceptName || pyTruthy skillName || pyTruthy difficultyName) = true)
    (hnotall : (pyTruthy conceptName && pyTruthy skillName && pyTruthy difficultyName) = false) :
    (createQuestionIfNotExists existing text
        conceptName skillName difficultyName tagSource).1.conceptEdges
      = (baseQuestion existing text).conceptEdges
    ∧ (createQuestionIfNotExists existing text
        conceptName skillName difficultyName tagSource).1.skillEdges
      = (baseQuestion existing text).skillEdges
    ∧ (createQuestionIfNotExists existing text
        conceptName skillName difficultyName tagSource).1.difficultyEdges
      = (baseQuestion existing text).difficultyEdges
    ∧ (createQuestionIfNotExists existing text
        conceptName skillName difficultyName tagSource).1.needsAiTagging = true
    ∧ (createQuestionIfNotExists existing text
        conceptName skillName difficultyName tagSource).1.taggingStatus = "untagged"
    ∧ (createQuestionIfNotExists existing text
        conceptName skillName difficultyName tagSource).2 = true := by
  simp [createQuestionIfNotExists, hnotall]

/-- Witness for C10: only a concept name is provided; the result keeps zero
edges and is flagged for AI tagging. -/
theorem C10_partial_tags_discarded_witness :
    (createQuestionIfNotExists none "What is 2+2?"
        (some "Arithmetic") none none "client").1.conceptEdges
      = (baseQuestion none "What is 2+2?").conceptEdges
    ∧ (createQuestionIfNotExists none "What is 2+2?"
        (some "Arithmetic") none none "client").1.skillEdges
      = (baseQuestion none "What is 2+2?").skillEdges
    ∧ (createQuestionIfNotExists none "What is 2+2?"
        (some "Arithmetic") none none "client").1.difficultyEdges
      = (baseQuestion none "What is 2+2?").difficultyEdges
    ∧ (createQuestionIfNotExists none "What is 2+2?"
        (some "Arithmetic") none none "client").1.needsAiTagging = true
    ∧ (createQuestionIfNotExists none "What is 2+2?"
        (some "Arithmetic") none none "client").1.taggingStatus = "untagged"
    ∧ (createQuestionIfNotExists none "What is 2+2?"
        (some "Arithmetic") none none "client").2 = true :=
  C10_partial_tags_discarded none "What is 2+2?" (some "Arithmetic") none none
    "client" (by decide) (by decide)

/-! ## Effective tag resolution (`ai_tagging.get_effective_tags`, lines 275-328)

`get_effective_tags` applies the helper `get_best_tag` independently to each
of the three relationship managers (topics, skills, difficulties).  The
neomodel model definitions are not part of the sources; following the spec's
data model, a relationship manager is modelled as the list of tag edges it
holds, each edge carrying the linked node's name and the `tag_source`,
`confidence` and `version` properties, enumerated in insertion order.
-/

/-- One tag edge as read by `get_best_tag`: linked node name plus the
`tag_source`, `confidence` and `version` relationship properties. -/
structure AiTagEdge where
  nodeName : String
  tagSource : String
  confidence : ℚ
  version : Nat
deriving DecidableEq, Repr

/-- The dict built for the winning tag (`name`, `tag_source`, `confidence`,
and `version` only for AI tags). -/
structure EffectiveTag where
  nodeName : String
  tagSource : String
  confidence : ℚ
  version : Option Nat
deriving DecidableEq, Repr

/-- The dict built for a client edge (ai_tagging.py lines 307-311). -/
def mkClientTag (e : AiTagEdge) : EffectiveTag :=
  ⟨e.nodeName, "client", e.confidence, none⟩

/-- The dict built for an AI edge (ai_tagging.py lines 314-319). -/
def mkAiTag (e : AiTagEdge) : EffectiveTag :=
  ⟨e.nodeName, "ai_generated", e.confidence, some e.version⟩

/-- The loop of `get_best_tag` (ai_tagging.py lines 298-321): the
accumulator carries the latest client tag seen, the best AI tag so far and
its version (initially -1); the final answer prefers the client tag. -/
def getBestTagGo (clientTag bestAiTag : Option EffectiveTag) (bestAiVersion : Int) :
    List AiTagEdge → Option EffectiveTag
  | [] =>
    match clientTag with
    | some t => some t
    | none => bestAiTag
  | e :: rest =>
    if e.tagSource = "client" then
      getBestTagGo (some (mkClientTag e)) bestAiTag bestAiVersion rest
    else if e.tagSource = "ai_generated" ∧ (e.version : Int) > bestAiVersion then
      getBestTagGo clientTag (some (mkAiTag e)) (e.version : Int) rest
    else
      getBestTagGo clientTag bestAiTag bestAiVersion rest

/-- Embedded from `get_best_tag`, applied per dimension by
`get_effective_tags`. -/
def getBestTag (edges : List AiTagEdge) : Option EffectiveTag :=
  getBestTagGo none none (-1) edges

/-- The AI-selection part of the loop in isolation (the client accumulator
never interacts with it). -/
def aiGo (bestAiTag : Option EffectiveTag) (bestAiVersion : Int) :
    List AiTagEdge → Option EffectiveTag
  | [] => bestAiTag
  | e :: rest =>
    if e.tagSource = "ai_generated" ∧ (e.version : Int) > bestAiVersion then
      aiGo (some (mkAiTag e)) (e.version : Int) rest
    else
      aiGo bestAiTag bestAiVersion rest

theorem getBestTagGo_no_client_some (es : List AiTagEdge) :
    ∀ (ct : EffectiveTag) (b : Option EffectiveTag) (v : Int),
      (∀ e ∈ es, e.tagSource ≠ "client") →
      getBestTagGo (some ct) b v es = some ct := by
  induction es with
  | nil => intro ct b v _; rfl
  | cons e es ih =>
    intro ct b v h
    have he : ¬ e.tagSource = "client" := h e (List.mem_cons_self e es)
    have hrest : ∀ x ∈ es, x.tagSource ≠ "client" :=
      fun x hx => h x (List.mem_cons_of_mem e hx)
    rw [getBestTagGo, if_neg he]
    by_cases hai : e.tagSource = "ai_generated" ∧ (e.version : Int) > v
    · rw [if_pos hai]
      exact ih ct _ _ hrest
    · rw [if_neg hai]
      exact ih ct b v hrest

theorem getBestTagGo_client (es : List AiTagEdge) :
    ∀ (c b : Option EffectiveTag) (v : Int),
      (∃ e ∈ es, e.tagSource = "client") →
      ∃ e ∈ es, e.tagSource = "client" ∧ getBestTagGo c b v es = some (mkClientTag e) := by
  induction es with
  | nil =>
    intro c b v hex
    obtain ⟨e, he, _⟩ := hex
    exact absurd he (List.not_mem_nil e)
  | cons e es ih =>
    intro c b v hex
    by_cases he : e.tagSource = "client"
    · rw [getBestTagGo, if_pos he]
      by_cases hrest : ∃ x ∈ es, x.tagSource = "client"
      · obtain ⟨x, hx, hxc, heq⟩ := ih (some (mkClientTag e)) b v hrest
        exact ⟨x, List.mem_cons_of_mem e hx, hxc, heq⟩
      · push_neg at hrest
        exact ⟨e, List.mem_cons_self e es, he,
          getBestTagGo_no_client_some es (mkClientTag e) b v hrest⟩
    · have hrest : ∃ x ∈ es, x.tagSource = "client" := by
        obtain ⟨x, hx, hxc⟩ := hex
        rcases List.mem_cons.mp hx with h | h
        · subst h
          exact absurd hxc he
        · exact ⟨x, h, hxc⟩
      rw [getBestTagGo, if_neg he]
      by_cases hai : e.tagSource = "ai_generated" ∧ (e.version : Int) > v
      · rw [if_pos hai]
        obtain ⟨x, hx, hxc, heq⟩ := ih c (some (mkAiTag e)) (e.version : Int) hrest
        exact ⟨x, List.mem_cons_of_mem e hx, hxc, heq⟩
      · rw [if_neg hai]
        obtain ⟨x, hx, hxc, heq⟩ := ih c b v hrest
        exact ⟨x, List.mem_cons_of_mem e hx, hxc, heq⟩

theorem getBestTagGo_none_eq_aiGo (es : List AiTagEdge) :
    ∀ (b : Option EffectiveTag) (v : Int),
      (∀ e ∈ es, e.tagSource ≠ "client") →
      getBestTagGo none b v es = aiGo b v es := by
  induction es with
  | nil => intro b v _; rfl
  | cons e es ih =>
    intro b v h
    have he : ¬ e.tagSource = "client" := h e (List.mem_cons_self e es)
    have hrest : ∀ x ∈ es, x.tagSource ≠ "client" :=
      fun x hx => h x (List.mem_cons_of_mem e hx)
    rw [getBestTagGo, if_neg he, aiGo]
    by_cases hai : e.tagSource = "ai_generated" ∧ (e.version : Int) > v
    · rw [if_pos hai, if_pos hai]
      exact ih _ _ hrest
    · rw [if_neg hai, if_neg hai]
      exact ih b v hrest

theorem aiGo_stable (es : List AiTagEdge) :
    ∀ (b : Option EffectiveTag) (v : Int),
      (∀ e ∈ es, ¬ (e.tagSource = "ai_generated" ∧ (e.version : Int) > v)) →
      aiGo b v es = b := by
  induction es with
  | nil => intro b v _; rfl
  | cons e es ih =>
    intro b v h
    have he := h e (List.mem_cons_self e es)
    rw [aiGo, if_neg he]
    exact ih b v (fun x hx => h x (List.mem_cons_of_mem e hx))

theorem aiGo_max (es : List AiTagEdge) :
    ∀ (b : Option EffectiveTag) (v : Int),
      (∃ e ∈ es, e.tagSource = "ai_generated" ∧ (e.version : Int) > v) →
      ∃ e ∈ es, e.tagSource = "ai_generated" ∧ (e.version : Int) > v
        ∧ aiGo b v es = some (mkAiTag e)
        ∧ ∀ x ∈ es, x.tagSource = "ai_generated" → (x.version : Int) ≤ (e.version : Int) := by
  induction es with
  | nil =>
    intro b v hex
    obtain ⟨e, he, _⟩ := hex
    exact absurd he (List.not_mem_nil e)
  | cons e es ih =>
    intro b v hex
    by_cases hai : e.tagSource = "ai_generated" ∧ (e.version : Int) > v
    · rw [aiGo, if_pos hai]
      by_cases hrest : ∃ x ∈ es, x.tagSource = "ai_generated" ∧ (x.version : Int) > (e.version : Int)
      · obtain ⟨x, hx, hxa, hxv, heq, hmax⟩ := ih (some (mkAiTag e)) (e.version : Int) hrest
        refine ⟨x, List.mem_cons_of_mem e hx, hxa, lt_trans hai.2 hxv, heq, ?_⟩
        intro y hy hya
        rcases List.mem_cons.mp hy with h | h
        · subst h
          exact le_of_lt hxv
        · exact hmax y h hya
      · push_neg at hrest
        have hstable := aiGo_stable es (some (mkAiTag e)) (e.version : Int) (by
          intro x hx hc
          exact absurd hc.2 (not_lt.mpr (hrest x hx hc.1)))
        refine ⟨e, List.mem_cons_self e es, hai.1, hai.2, hstable, ?_⟩
        intro y hy hya
        rcases List.mem_cons.mp hy with h | h
        · subst h
          exact le_refl _
        · exact hrest y h hya
    · rw [aiGo, if_neg hai]
      have hrest : ∃ x ∈ es, x.tagSource = "ai_generated" ∧ (x.version : Int) > v := by
        obtain ⟨x, hx, hxp⟩ := hex
        rcases List.mem_cons.mp hx with h | h
        · subst h
          exact absurd hxp hai
        · exact ⟨x, h, hxp⟩
      obtain ⟨x, hx, hxa, hxv, heq, hmax⟩ := ih b v hrest
      refine ⟨x, List.mem_cons_of_mem e hx, hxa, hxv, heq, ?_⟩
      intro y hy hya
      rcases List.mem_cons.mp hy with h | h
      · subst h
        have hle : ¬ ((y.version : Int) > v) := fun hgt => hai ⟨hya, hgt⟩
        exact le_of_lt (lt_of_le_of_lt (not_lt.mp hle) hxv)
      · exact hmax y h hya

/-- Claim C3: per dimension, `get_effective_tags` returns a client-source tag
whenever some client edge exists (regardless of confidence, version or
recency); otherwise it returns the AI edge with the highest version; and with
neither source present the dimension resolves to `None`. -/
theorem C3_effective_tags :
    (∀ edges : List AiTagEdge,
      (∃ e ∈ edges, e.tagSource = "client") →
      ∃ e ∈ edges, e.tagSource = "client" ∧ getBestTag edges = some (mkClientTag e))
    ∧ (∀ edges : List AiTagEdge,
      (∀ e ∈ edges, e.tagSource ≠ "client") →
      (∃ e ∈ edges, e.tagSource = "ai_generated") →
      ∃ e ∈ edges, e.tagSource = "ai_generated" ∧ getBestTag edges = some (mkAiTag e)
        ∧ ∀ x ∈ edges, x.tagSource = "ai_generated" → x.version ≤ e.version)
    ∧ (∀ edges : List AiTagEdge,
      (∀ e ∈ edges, e.tagSource ≠ "client" ∧ e.tagSource ≠ "ai_generated") →
      getBestTag edges = none) := by
  refine ⟨?_, ?_, ?_⟩
  · intro edges hex
    exact getBestTagGo_client edges none none (-1) hex
  · intro edges hnc hex
    rw [getBestTag, getBestTagGo_none_eq_aiGo edges none (-1) hnc]
    have hex2 : ∃ e ∈ edges, e.tagSource = "ai_generated" ∧ (e.version : Int) > (-1) := by
      obtain ⟨e, he, hea⟩ := hex
      refine ⟨e, he, hea, ?_⟩
      have := Int.natCast_nonneg e.version
      omega
    obtain ⟨e, he, hea, _, heq, hmax⟩ := aiGo_max edges none (-1) hex2
    refine ⟨e, he, hea, heq, ?_⟩
    intro x hx hxa
    exact_mod_cast hmax x hx hxa
  · intro edges h
    rw [getBestTag,
      getBestTagGo_none_eq_aiGo edges none (-1) (fun e he => (h e he).1)]
    exact aiGo_stable edges none (-1) (fun e he hc => (h e he).2 hc.1)

/-- An AI topic edge used in concrete runs. -/
def aiEdgeExample : AiTagEdge := ⟨"Mechanics", "ai_generated", 1/2, 1⟩

/-- A client topic edge used in concrete runs. -/
def clientEdgeExample : AiTagEdge := ⟨"Algebra", "client", 1, 0⟩

/-- Witness for C3: with one AI edge and one client edge, the client edge
wins. -/
theorem C3_effective_tags_witness :
    ∃ e ∈ [aiEdgeExample, clientEdgeExample], e.tagSource = "client"
      ∧ getBestTag [aiEdgeExample, clientEdgeExample] = some (mkClientTag e) :=
  C3_effective_tags.1 [aiEdgeExample, clientEdgeExample]
    ⟨clientEdgeExample,
      List.mem_cons_of_mem aiEdgeExample (List.mem_cons_self clientEdgeExample []),
      rfl⟩

/-! ## The tagging engine (`ai_tagging.tag_question`, lines 60-229)

The classifier call is modelled as `Option ClassifierJson`: `none` is the
exception path (network error or unparseable JSON), `some data` is a parsed
response whose individual fields may still be absent (`data.get` defaults are
applied inside `tag_question`).  The question state carries `tagging_status`,
`needs_ai_tagging` and the three legacy tag-edge lists that `tag_question`
reads and extends (`question.topics/skills/difficulties`); as with the
resolver above, the relationship managers are modelled as edge lists following
the spec's data model because the model definitions are not in the sources.
The `parent_topic` field only affects the created Concept node's
`parent_concept` attribute, never a tag edge, so it is carried but unused.
-/

/-- A parsed classifier JSON response (`data` in ai_tagging.py line 147). -/
structure ClassifierJson where
  topic : Option String
  parentTopic : Option String
  topicConfidence : Option ℚ
  skill : Option String
  skillConfidence : Option ℚ
  difficulty : Option String
  difficultyConfidence : Option ℚ
deriving DecidableEq, Repr

/-- The question state read and written by `tag_question`. -/
structure TagQuestionState where
  taggingStatus : String
  needsAiTagging : Bool
  topicEdges : List AiTagEdge
  skillEdges : List AiTagEdge
  difficultyEdges : List AiTagEdge
deriving DecidableEq, Repr

/-- The result dict of `tag_question`, reduced to its discriminating
content. -/
inductive TagOutcome where
  | alreadyTagged
  | aiFailed
  | success (version : Nat)
deriving DecidableEq, Repr

/-- The short-circuit guard of step 2 (ai_tagging.py line 80):
`not force_retag and question.tagging_status == 'tagged' and not
question.needs_ai_tagging`. -/
abbrev skipsTagging (forceRetag : Bool) (q : TagQuestionState) : Prop :=
  ¬ forceRetag = true ∧ q.taggingStatus = "tagged" ∧ ¬ q.needsAiTagging = true

/-- Embedded from ai_tagging.py lines 153-168: the highest `version` among
`tag_source = 'ai_generated'` edges across all three dimensions, 0 when there
is none. -/
def maxAiVersion (q : TagQuestionState) : Nat :=
  ((q.topicEdges ++ q.skillEdges ++ q.difficultyEdges).filter
      (fun e => e.tagSource = "ai_generated")).foldl (fun m e => max m e.version) 0

/-- Embedded from `tag_question` (ai_tagging.py lines 60-229), for a question
that exists (the `Question.DoesNotExist` early return is the caller's
concern).  Steps: short-circuit when already tagged; mark pending; on
classifier failure mark failed; otherwise create one `ai_generated` edge per
dimension with version `current_max_version + 1` and the returned (or
defaulted) names and confidences, then mark tagged. -/
def tagQuestion (forceRetag : Bool) (response : Option ClassifierJson)
    (q : TagQuestionState) : TagQuestionState × TagOutcome :=
  if skipsTagging forceRetag q then (q, TagOutcome.alreadyTagged)
  else
    let q1 := { q with taggingStatus := "pending" }
    match response with
    | none => ({ q1 with taggingStatus := "failed" }, TagOutcome.aiFailed)
    | some data =>
      let newVersion := maxAiVersion q1 + 1
      let q2 := { q1 with
        topicEdges := q1.topicEdges ++
          [⟨data.topic.getD "Uncategorized", "ai_generated",
            data.topicConfidence.getD (1/2), newVersion⟩],
        skillEdges := q1.skillEdges ++
          [⟨data.skill.getD "Application", "ai_generated",
            data.skillConfidence.getD (1/2), newVersion⟩],
        difficultyEdges := q1.difficultyEdges ++
          [⟨data.difficulty.getD "Medium", "ai_generated",
            data.difficultyConfidence.getD (1/2), newVersion⟩],
        needsAiTagging := false,
        taggingStatus := "tagged" }
      (q2, TagOutcome.success newVersion)

/-- A freshly ingested untagged question. -/
def freshQuestion : TagQuestionState := ⟨"untagged", true, [], [], []⟩

/-- The degenerate classifier output of the claim: sentinel names and
`topic_confidence = 0.05 < 0.1`. -/
def degenerateClassifierData : ClassifierJson :=
  ⟨some "Uncategorized", some "General", some (1/20),
   some "Application", some (9/10), some "Medium", some (9/10)⟩

/-- Counterexample to claim C1: `tag_question` accepts the degenerate
low-confidence classifier result — it returns success with version 1, sets
`tagging_status = 'tagged'` (not 'failed') and creates one edge per
dimension instead of zero. -/
theorem C1_counterexample :
    (tagQuestion false (some degenerateClassifierData) freshQuestion).2
        = TagOutcome.success 1
      ∧ (tagQuestion false (some degenerateClassifierData) freshQuestion).1.taggingStatus
        = "tagged"
      ∧ (tagQuestion false (some degenerateClassifierData) freshQuestion).1.topicEdges.length
        = 1
      ∧ (tagQuestion false (some degenerateClassifierData) freshQuestion).1.skillEdges.length
        = 1
      ∧ (tagQuestion false (some degenerateClassifierData) freshQuestion).1.difficultyEdges.length
        = 1 := by
  refine ⟨rfl, rfl, rfl, rfl, rfl⟩

/-- Claim C1 (amended): `tag_question` performs no validation of the parsed
classifier output.  It fails (status 'failed', failure result, zero new
edges) exactly when the classifier call raises or its JSON cannot be parsed;
every successfully parsed result — sentinel values and sub-0.1 confidence
included — is accepted and recorded as one new `ai_generated` edge per
dimension with `tagging_status = 'tagged'`. -/
theorem C1_amended_no_validation (q : TagQuestionState) (data : ClassifierJson)
    (force : Bool) (h : ¬ skipsTagging force q) :
    ((tagQuestion force (some data) q).2 = TagOutcome.success (maxAiVersion q + 1)
      ∧ (tagQuestion force (some data) q).1.taggingStatus = "tagged"
      ∧ (tagQuestion force (some data) q).1.topicEdges.length = q.topicEdges.length + 1
      ∧ (tagQuestion force (some data) q).1.skillEdges.length = q.skillEdges.length + 1
      ∧ (tagQuestion force (some data) q).1.difficultyEdges.length
          = q.difficultyEdges.length + 1)
    ∧ ((tagQuestion force none q).2 = TagOutcome.aiFailed
      ∧ (tagQuestion force none q).1.taggingStatus = "failed"
      ∧ (tagQuestion force none q).1.topicEdges = q.topicEdges
      ∧ (tagQuestion force none q).1.skillEdges = q.skillEdges
      ∧ (tagQuestion force none q).1.difficultyEdges = q.difficultyEdges) := by
  constructor
  · rw [tagQuestion, if_neg h]
    refine ⟨rfl, rfl, ?_, ?_, ?_⟩ <;> simp
  · rw [tagQuestion, if_neg h]
    exact ⟨rfl, rfl, rfl, rfl, rfl⟩

/-- Witness for C1 (amended): the degenerate result is accepted on a fresh
question. -/
theorem C1_amended_no_validation_witness :
    ((tagQuestion false (some degenerateClassifierData) freshQuestion).2
        = TagOutcome.success (maxAiVersion freshQuestion + 1)
      ∧ (tagQuestion false (some degenerateClassifierData) freshQuestion).1.taggingStatus
        = "tagged"
      ∧ (tagQuestion false (some degenerateClassifierData) freshQuestion).1.topicEdges.length
        = freshQuestion.topicEdges.length + 1
      ∧ (tagQuestion false (some degenerateClassifierData) freshQuestion).1.skillEdges.length
        = freshQuestion.skillEdges.length + 1
      ∧ (tagQuestion false (some degenerateClassifierData) freshQuestion).1.difficultyEdges.length
        = freshQuestion.difficultyEdges.length + 1)
    ∧ ((tagQuestion false none freshQuestion).2 = TagOutcome.aiFailed
      ∧ (tagQuestion false none freshQuestion).1.taggingStatus = "failed"
      ∧ (tagQuestion false none freshQuestion).1.topicEdges = freshQuestion.topicEdges
      ∧ (tagQuestion false none freshQuestion).1.skillEdges = freshQuestion.skillEdges
      ∧ (tagQuestion false none freshQuestion).1.difficultyEdges
          = freshQuestion.difficultyEdges) :=
  C1_amended_no_validation freshQuestion degenerateClassifierData false (by decide)

/-! ## Version audit trail (claim C2)

Evolution of a question's tag edges under arbitrary sequences of
`tag_question` runs (any force flag, any classifier behaviour per run).
-/

/-- The versions of the `tag_source = 'ai_generated'` edges of one dimension,
in creation order. -/
def llmVersions (edges : List AiTagEdge) : List Nat :=
  (edges.filter (fun e => e.tagSource = "ai_generated")).map (fun e => e.version)

/-- One `tag_question` run, any force flag and classifier behaviour. -/
def TagStep (q q' : TagQuestionState) : Prop :=
  ∃ (force : Bool) (response : Option ClassifierJson),
    q' = (tagQuestion force response q).1

/-- Any finite sequence of `tag_question` runs. -/
def TagReach : TagQuestionState → TagQuestionState → Prop :=
  Relation.ReflTransGen TagStep

/-- All three dimensions carry exactly the AI versions `[1, ..., k]`, in
order. -/
def AiDense (q : TagQuestionState) (k : Nat) : Prop :=
  llmVersions q.topicEdges = List.range' 1 k
    ∧ llmVersions q.skillEdges = List.range' 1 k
    ∧ llmVersions q.difficultyEdges = List.range' 1 k

theorem llmVersions_append (l1 l2 : List AiTagEdge) :
    llmVersions (l1 ++ l2) = llmVersions l1 ++ llmVersions l2 := by
  rw [llmVersions, llmVersions, llmVersions, List.filter_append, List.map_append]

theorem foldl_max_range1 (k : Nat) :
    ∀ a : Nat, (List.range' 1 k).foldl max a = max a k := by
  induction k with
  | zero =>
    intro a
    simp
  | succ k ih =>
    intro a
    rw [List.range'_concat, List.foldl_append, ih]
    simp only [List.foldl_cons, List.foldl_nil]
    omega

theorem maxAi_of_dense (q : TagQuestionState) (k : Nat) (h : AiDense q k) :
    maxAiVersion q = k := by
  obtain ⟨h1, h2, h3⟩ := h
  have hgen : ∀ (l : List AiTagEdge) (a : Nat),
      (l.filter (fun e => e.tagSource = "ai_generated")).foldl
          (fun m e => max m e.version) a
        = (llmVersions l).foldl max a := by
    intro l a
    rw [llmVersions, List.foldl_map]
  rw [maxAiVersion, List.filter_append, List.filter_append,
    List.foldl_append, List.foldl_append, hgen, hgen, hgen, h1, h2, h3,
    foldl_max_range1, foldl_max_range1, foldl_max_range1]
  simp

theorem tagStep_prefix {q q' : TagQuestionState} (hstep : TagStep q q') :
    q.topicEdges <+: q'.topicEdges
      ∧ q.skillEdges <+: q'.skillEdges
      ∧ q.difficultyEdges <+: q'.difficultyEdges := by
  obtain ⟨force, response, heq⟩ := hstep
  by_cases hskip : skipsTagging force q
  · have hq : q' = q := by rw [heq, tagQuestion, if_pos hskip]
    rw [hq]
    exact ⟨List.prefix_refl _, List.prefix_refl _, List.prefix_refl _⟩
  · cases response with
    | none =>
      have hq : q' = { q with taggingStatus := "failed" } := by
        rw [heq, tagQuestion, if_neg hskip]
      rw [hq]
      exact ⟨List.prefix_refl _, List.prefix_refl _, List.prefix_refl _⟩
    | some data =>
      rw [heq, tagQuestion, if_neg hskip]
      exact ⟨List.prefix_append _ _, List.prefix_append _ _, List.prefix_append _ _⟩

theorem tagStep_dense {q q' : TagQuestionState} (hstep : TagStep q q')
    (k : Nat) (h : AiDense q k) : AiDense q' k ∨ AiDense q' (k + 1) := by
  obtain ⟨force, response, heq⟩ := hstep
  by_cases hskip : skipsTagging force q
  · left
    have hq : q' = q := by rw [heq, tagQuestion, if_pos hskip]
    rwa [hq]
  · cases response with
    | none =>
      left
      have hq : q' = { q with taggingStatus := "failed" } := by
        rw [heq, tagQuestion, if_neg hskip]
      rw [hq]
      exact h
    | some data =>
      right
      have hmax : maxAiVersion { q with taggingStatus := "pending" } = maxAiVersion q := rfl
      have hone : ∀ (nm : String) (c : ℚ),
          llmVersions [(⟨nm, "ai_generated", c, maxAiVersion q + 1⟩ : AiTagEdge)]
            = [maxAiVersion q + 1] := by
        intro nm c
        rfl
      have hq : q' = (tagQuestion force (some data) q).1 := heq
      rw [tagQuestion, if_neg hskip] at hq
      rw [hq]
      refine ⟨?_, ?_, ?_⟩ <;>
        · show llmVersions (_ ++ _) = _
          rw [llmVersions_append, hmax]
          rw [maxAi_of_dense q k h] at hone ⊢
          rw [hone]
          first
            | rw [h.1]
            | rw [h.2.1]
            | rw [h.2.2]
          rw [List.range'_concat]
          have h2 : 1 + 1 * k = k + 1 := by omega
          rw [h2]

/-- Claim C2: tag edges are never mutated or removed by `tag_question` (each
dimension's edge list of the old state is a prefix of the new); every
successful run writes version `1 + max(existing AI version across all three
dimensions)` to each of the three edges it creates; and starting from a
question with no AI edges, any sequence of runs leaves every dimension's AI
versions exactly `[1, ..., k]` — dense, strictly increasing from 1. -/
theorem C2_version_audit :
    (∀ q q' : TagQuestionState, TagStep q q' →
      q.topicEdges <+: q'.topicEdges
        ∧ q.skillEdges <+: q'.skillEdges
        ∧ q.difficultyEdges <+: q'.difficultyEdges)
    ∧ (∀ (q : TagQuestionState) (data : ClassifierJson) (force : Bool),
      ¬ skipsTagging force q →
      (tagQuestion force (some data) q).2 = TagOutcome.success (maxAiVersion q + 1)
        ∧ llmVersions (tagQuestion force (some data) q).1.topicEdges
            = llmVersions q.topicEdges ++ [maxAiVersion q + 1]
        ∧ llmVersions (tagQuestion force (some data) q).1.skillEdges
            = llmVersions q.skillEdges ++ [maxAiVersion q + 1]
        ∧ llmVersions (tagQuestion force (some data) q).1.difficultyEdges
            = llmVersions q.difficultyEdges ++ [maxAiVersion q + 1])
    ∧ (∀ q0 q : TagQuestionState, AiDense q0 0 → TagReach q0 q →
      ∃ k, AiDense q k) := by
  refine ⟨?_, ?_, ?_⟩
  · intro q q' hstep
    exact tagStep_prefix hstep
  · intro q data force h
    rw [tagQuestion, if_neg h]
    refine ⟨rfl, ?_, ?_, ?_⟩ <;>
      · show llmVersions (_ ++ _) = _
        rw [llmVersions_append]
        rfl
  · intro q0 q h0 hreach
    induction hreach with
    | refl => exact ⟨0, h0⟩
    | tail _ hstep ih =>
      obtain ⟨k, hk⟩ := ih
      rcases tagStep_dense hstep k hk with h | h
      · exact ⟨k, h⟩
      · exact ⟨k + 1, h⟩

/-- Witness for C2: one successful run on a fresh question yields dense AI
versions `[1]` on all three dimensions. -/
theorem C2_version_audit_witness :
    ∃ k, AiDense (tagQuestion false (some degenerateClassifierData) freshQuestion).1 k :=
  C2_version_audit.2.2 freshQuestion
    (tagQuestion false (some degenerateClassifierData) freshQuestion).1
    ⟨rfl, rfl, rfl⟩
    (Relation.ReflTransGen.single ⟨false, some degenerateClassifierData, rfl⟩)

/-! ## Rate limiter (`ai_tagging.check_rate_limit`, lines 33-57)

`request_timestamps` is a `deque(maxlen=RATE_LIMIT)`; appending to it when
full drops the oldest entry.  Wall-clock time is modelled as `ℚ`; `hist` is a
ghost list of every recorded call timestamp in order, used only to state the
quota property.  `time.sleep(w)` is modelled as sleeping exactly `w` (a
longer sleep, or the slightly later second `time.time()` call of line 57,
only widens the gaps the safety bound relies on).  The sequential workflow is
modelled by letting each call happen an arbitrary `gap ≥ 0` after the
previous call returned.
-/

/-- `RATE_LIMIT = 5` requests (ai_tagging.py line 34). -/
def RATE_LIMIT : Nat := 5

/-- `RATE_WINDOW = 60` seconds (ai_tagging.py line 35). -/
def RATE_WINDOW : ℚ := 60

/-- The rate limiter state: the `request_timestamps` deque (oldest first)
plus the ghost history of all recorded timestamps. -/
structure RLState where
  deque : List ℚ
  hist : List ℚ
deriving DecidableEq, Repr

/-- The eviction loop (ai_tagging.py lines 47-48): pop entries strictly
older than the window. -/
def rlEvict (now : ℚ) (dq : List ℚ) : List ℚ :=
  dq.dropWhile (fun t => RATE_WINDOW < now - t)

/-- Embedded from `check_rate_limit` (ai_tagging.py lines 39-57): evict old
timestamps; if `RATE_LIMIT` entries remain, sleep
`RATE_WINDOW - (now - oldest) + 0.1` and record the post-sleep time (the
`maxlen` append drops the oldest entry), otherwise record `now`. -/
def checkRateLimit (now : ℚ) (s : RLState) : RLState :=
  let dq := rlEvict now s.deque
  if RATE_LIMIT ≤ dq.length then
    let tRec := dq.headD 0 + RATE_WINDOW + 1/10
    { deque := dq.tail ++ [tRec], hist := s.hist ++ [tRec] }
  else
    { deque := dq ++ [now], hist := s.hist ++ [now] }

/-- The moment the last call returned (= its recorded timestamp). -/
def lastRec (s : RLState) : ℚ := s.hist.getLastD 0

/-- A sequential workflow: one call at `now`, then one call `gap` seconds
after each previous call returned. -/
def runCalls (s : RLState) (now : ℚ) : List ℚ → RLState
  | [] => checkRateLimit now s
  | g :: gaps => runCalls (checkRateLimit now s) (lastRec (checkRateLimit now s) + g) gaps

/-- A full sequential execution from the initial empty limiter state. -/
def rlRun (start : ℚ) (gaps : List ℚ) : RLState :=
  runCalls ⟨[], []⟩ start gaps

/-- Membership of a timestamp in the closed sliding window `[a, a + 60]`. -/
def inWindow (a : ℚ) (t : ℚ) : Bool :=
  decide (a ≤ t ∧ t ≤ a + RATE_WINDOW)

/-- Any recorded timestamp and the fifth one after it are more than one
window apart. -/
def Gap5 (l : List ℚ) : Prop :=
  ∀ i, i + RATE_LIMIT < l.length →
    l.getD i 0 + RATE_WINDOW < l.getD (i + RATE_LIMIT) 0

/-- The limiter invariant, relative to the caller's current clock `now`:
the history is sorted and 5-spread, the deque is a suffix of the history of
length at most `RATE_LIMIT` whose dropped prefix is more than a window older
than the last recorded timestamp, and nothing was recorded after `now`. -/
structure RLInv (s : RLState) (now : ℚ) : Prop where
  sorted : s.hist.Sorted (· ≤ ·)
  gap5 : Gap5 s.hist
  dlen : s.deque.length ≤ RATE_LIMIT
  decomp : ∃ pre, s.hist = pre ++ s.deque
    ∧ ∀ t ∈ pre, t + RATE_WINDOW < s.hist.getLastD 0
  le_now : ∀ t ∈ s.hist, t ≤ now

theorem RLInv.mono {s : RLState} {now now2 : ℚ} (h : RLInv s now)
    (hle : now ≤ now2) : RLInv s now2 :=
  ⟨h.sorted, h.gap5, h.dlen, h.decomp, fun t ht => le_trans (h.le_now t ht) hle⟩

theorem getLastD_mem : ∀ (l : List ℚ), l ≠ [] → ∀ d : ℚ, l.getLastD d ∈ l := by
  intro l
  induction l with
  | nil => intro h; exact absurd rfl h
  | cons a t ih =>
    intro _ d
    rw [List.getLastD_cons]
    cases t with
    | nil => simp
    | cons b t2 => exact List.mem_cons_of_mem a (ih (by simp) a)

theorem headD_cons_tail {l : List ℚ} (h : l ≠ []) : l.headD 0 :: l.tail = l := by
  cases l with
  | nil => exact absurd rfl h
  | cons a t => rfl

theorem headD_eq_getD (l : List ℚ) : l.headD 0 = l.getD 0 0 := by
  cases l <;> rfl

theorem rlEvict_headD_not_old (now : ℚ) : ∀ (l : List ℚ),
    rlEvict now l ≠ [] →
    ¬ (RATE_WINDOW < now - (rlEvict now l).headD 0) := by
  intro l
  induction l with
  | nil => intro h; exact absurd rfl h
  | cons a t ih =>
    intro h
    rw [rlEvict] at h ⊢
    by_cases hp : RATE_WINDOW < now - a
    · rw [List.dropWhile_cons_of_pos
        (p := fun t => decide (RATE_WINDOW < now - t)) (by exact decide_eq_true hp)] at h ⊢
      rw [rlEvict] at ih
      exact ih h
    · rw [List.dropWhile_cons_of_neg
        (p := fun t => decide (RATE_WINDOW < now - t)) (by simpa using hp)] at h ⊢
      simpa using hp

theorem checkRateLimit_inv (s : RLState) (now : ℚ) (h : RLInv s now) :
    RLInv (checkRateLimit now s) (lastRec (checkRateLimit now s))
      ∧ now ≤ lastRec (checkRateLimit now s) := by
  have hRL : RATE_LIMIT = 5 := rfl
  obtain ⟨pre, hdecomp, hpre⟩ := h.decomp
  have hsplit : s.deque.takeWhile (fun t => decide (RATE_WINDOW < now - t))
      ++ rlEvict now s.deque = s.deque := by
    rw [rlEvict]
    exact List.takeWhile_append_dropWhile _ _
  have hev : ∀ t ∈ s.deque.takeWhile (fun t => decide (RATE_WINDOW < now - t)),
      t + RATE_WINDOW < now := by
    intro t ht
    have hp := List.mem_takeWhile_imp ht
    have hlt := of_decide_eq_true hp
    linarith
  have hhist2 : s.hist
      = (pre ++ s.deque.takeWhile (fun t => decide (RATE_WINDOW < now - t)))
        ++ rlEvict now s.deque := by
    rw [List.append_assoc, hsplit]
    exact hdecomp
  have hpre2 : ∀ t ∈ pre ++ s.deque.takeWhile (fun t => decide (RATE_WINDOW < now - t)),
      t + RATE_WINDOW < now := by
    intro t ht
    rcases List.mem_append.mp ht with h1 | h1
    · have hne : pre ≠ [] := by
        intro h0
        rw [h0] at h1
        exact absurd h1 (List.not_mem_nil t)
      have hhne : s.hist ≠ [] := by
        intro h0
        rw [h0] at hdecomp
        exact hne (List.append_eq_nil.mp hdecomp.symm).1
      have hlast_mem := getLastD_mem s.hist hhne 0
      have h2 := hpre t h1
      have h3 := h.le_now _ hlast_mem
      linarith
    · exact hev t h1
  have hlen2 : (rlEvict now s.deque).length ≤ s.deque.length := by
    conv_rhs => rw [← hsplit]
    rw [List.length_append]
    omega
  by_cases hfull : RATE_LIMIT ≤ (rlEvict now s.deque).length
  · -- the deque is full after eviction: sleep, then record
    have hck : checkRateLimit now s
        = { deque := (rlEvict now s.deque).tail
              ++ [(rlEvict now s.deque).headD 0 + RATE_WINDOW + 1/10],
            hist := s.hist
              ++ [(rlEvict now s.deque).headD 0 + RATE_WINDOW + 1/10] } := by
      simp only [checkRateLimit]
      rw [if_pos hfull]
    set dq := rlEvict now s.deque with hdq_def
    set ev := s.deque.takeWhile (fun t => decide (RATE_WINDOW < now - t)) with hev_def
    set tRec := dq.headD 0 + RATE_WINDOW + 1/10 with htRec
    have hlast : lastRec (checkRateLimit now s) = tRec := by
      rw [hck, lastRec]
      exact List.getLastD_concat 0 tRec s.hist
    have hdq5 : dq.length = RATE_LIMIT := by
      have hd := h.dlen
      omega
    have hdqne : dq ≠ [] := by
      intro h0
      rw [h0] at hdq5
      simp [hRL] at hdq5
    have hfr : ¬ (RATE_WINDOW < now - dq.headD 0) :=
      rlEvict_headD_not_old now s.deque hdqne
    have hnow_le : now ≤ dq.headD 0 + RATE_WINDOW := by
      have := not_lt.mp hfr
      linarith
    have hnow_lt : now < tRec := by
      rw [htRec]
      linarith
    have hallle : ∀ t ∈ s.hist, t < tRec :=
      fun t ht => lt_of_le_of_lt (h.le_now t ht) hnow_lt
    have hlen3 := congrArg List.length hhist2
    rw [List.length_append] at hlen3
    constructor
    · rw [hlast, hck]
      refine ⟨?_, ?_, ?_, ?_, ?_⟩
      · exact List.pairwise_append.mpr ⟨h.sorted, List.pairwise_singleton _ _,
          fun x hx y hy => by
            simp only [List.mem_singleton] at hy
            subst hy
            exact le_of_lt (hallle x hx)⟩
      · intro i hi
        rw [List.length_append, List.length_singleton] at hi
        by_cases hlt : i + RATE_LIMIT < s.hist.length
        · rw [List.getD_append s.hist _ 0 i (by omega),
            List.getD_append s.hist _ 0 (i + RATE_LIMIT) hlt]
          exact h.gap5 i hlt
        · have heq : i + RATE_LIMIT = s.hist.length := by omega
          rw [List.getD_append s.hist _ 0 i (by omega),
            List.getD_append_right s.hist _ 0 (i + RATE_LIMIT) (by omega)]
          have h0 : i + RATE_LIMIT - s.hist.length = 0 := by omega
          rw [h0]
          have hplen : (pre ++ ev).length = i := by omega
          rw [hhist2, List.getD_append_right (pre ++ ev) dq 0 i (le_of_eq hplen)]
          rw [hplen, Nat.sub_self, ← headD_eq_getD]
          show dq.headD 0 + RATE_WINDOW < tRec
          rw [htRec]
          linarith
      · rw [List.length_append, List.length_tail, List.length_singleton]
        omega
      · refine ⟨(pre ++ ev) ++ [dq.headD 0], ?_, ?_⟩
        · rw [hhist2]
          conv_lhs => rw [← headD_cons_tail hdqne]
          simp [List.append_assoc]
        · intro t ht
          rw [List.getLastD_concat]
          rcases List.mem_append.mp ht with h1 | h1
          · have := hpre2 t h1
            linarith
          · simp only [List.mem_singleton] at h1
            subst h1
            rw [htRec]
            linarith
      · intro t ht
        rcases List.mem_append.mp ht with h1 | h1
        · exact le_of_lt (hallle t h1)
        · simp only [List.mem_singleton] at h1
          subst h1
          exact le_refl _
    · rw [hlast]
      exact le_of_lt hnow_lt
  · -- a slot is free: record immediately
    push_neg at hfull
    have hck : checkRateLimit now s
        = { deque := rlEvict now s.deque ++ [now], hist := s.hist ++ [now] } := by
      simp only [checkRateLimit]
      rw [if_neg (not_le.mpr hfull)]
    set dq := rlEvict now s.deque with hdq_def
    set ev := s.deque.takeWhile (fun t => decide (RATE_WINDOW < now - t)) with hev_def
    have hlast : lastRec (checkRateLimit now s) = now := by
      rw [hck, lastRec]
      exact List.getLastD_concat 0 now s.hist
    have hlen3 := congrArg List.length hhist2
    rw [List.length_append] at hlen3
    constructor
    · rw [hlast, hck]
      refine ⟨?_, ?_, ?_, ?_, ?_⟩
      · exact List.pairwise_append.mpr ⟨h.sorted, List.pairwise_singleton _ _,
          fun x hx y hy => by
            simp only [List.mem_singleton] at hy
            subst hy
            exact h.le_now x hx⟩
      · intro i hi
        rw [List.length_append, List.length_singleton] at hi
        by_cases hlt : i + RATE_LIMIT < s.hist.length
        · rw [List.getD_append s.hist _ 0 i (by omega),
            List.getD_append s.hist _ 0 (i + RATE_LIMIT) hlt]
          exact h.gap5 i hlt
        · have heq : i + RATE_LIMIT = s.hist.length := by omega
          rw [List.getD_append s.hist _ 0 i (by omega),
            List.getD_append_right s.hist _ 0 (i + RATE_LIMIT) (by omega)]
          have h0 : i + RATE_LIMIT - s.hist.length = 0 := by omega
          rw [h0]
          have hipre : i < (pre ++ ev).length := by omega
          rw [hhist2, List.getD_append (pre ++ ev) dq 0 i hipre]
          have hmem : (pre ++ ev).getD i 0 ∈ pre ++ ev := by
            rw [List.getD_eq_getElem (pre ++ ev) 0 hipre]
            exact List.getElem_mem hipre
          show (pre ++ ev).getD i 0 + RATE_WINDOW < now
          exact hpre2 _ hmem
      · rw [List.length_append, List.length_singleton]
        omega
      · refine ⟨pre ++ ev, ?_, ?_⟩
        · rw [hhist2, List.append_assoc]
        · intro t ht
          rw [List.getLastD_concat]
          exact hpre2 t ht
      · intro t ht
        rcases List.mem_append.mp ht with h1 | h1
        · exact h.le_now t h1
        · simp only [List.mem_singleton] at h1
          subst h1
          exact le_refl _
    · rw [hlast]

theorem gap5_tail {x : ℚ} {xs : List ℚ} (h : Gap5 (x :: xs)) : Gap5 xs := by
  intro i hi
  have h2 := h (i + 1) (by simp only [List.length_cons]; omega)
  have hidx : i + 1 + RATE_LIMIT = (i + RATE_LIMIT) + 1 := by omega
  rw [hidx, List.getD_cons_succ, List.getD_cons_succ] at h2
  exact h2

theorem window_count_le : ∀ (l : List ℚ), l.Sorted (· ≤ ·) → Gap5 l →
    ∀ a : ℚ, l.countP (inWindow a) ≤ RATE_LIMIT := by
  intro l
  induction l with
  | nil =>
    intro _ _ a
    simp [RATE_LIMIT]
  | cons x xs ih =>
    intro hs hg a
    have hRL : RATE_LIMIT = 5 := rfl
    have hs2 : xs.Sorted (· ≤ ·) := hs.of_cons
    have hg2 : Gap5 xs := gap5_tail hg
    rw [List.countP_cons]
    by_cases hx : inWindow a x = true
    · have hone : (if inWindow a x = true then 1 else 0) = 1 := by
        rw [hx]
        rfl
      have hcount : xs.countP (inWindow a) ≤ 4 := by
        by_cases hlen : xs.length ≤ 4
        · exact le_trans (List.countP_le_length _) hlen
        · push_neg at hlen
          have hgap := hg 0 (by simp only [List.length_cons]; omega)
          rw [List.getD_cons_zero] at hgap
          have hidx5 : 0 + RATE_LIMIT = 4 + 1 := by omega
          rw [hidx5, List.getD_cons_succ] at hgap
          have hxw : a ≤ x ∧ x ≤ a + RATE_WINDOW := by
            rw [inWindow] at hx
            exact of_decide_eq_true hx
          rw [← List.take_append_drop 4 xs, List.countP_append]
          have hc1 : (xs.take 4).countP (inWindow a) ≤ 4 := by
            refine le_trans (List.countP_le_length _) ?_
            rw [List.length_take]
            exact min_le_left _ _
          have hc2 : (xs.drop 4).countP (inWindow a) = 0 := by
            rw [List.countP_eq_zero]
            intro y hy
            obtain ⟨⟨j, hj⟩, hyeq⟩ := List.mem_iff_get.mp hy
            have hidx : 4 + j < xs.length := by
              have hj2 := hj
              simp only [List.length_drop] at hj2
              omega
            have hyval : y = xs.get ⟨4 + j, hidx⟩ := by
              rw [← hyeq]
              simp [List.getElem_drop]
            have h45 : xs.getD 4 0 ≤ y := by
              rw [hyval, List.getD_eq_getElem xs 0 (by omega : 4 < xs.length)]
              exact hs2.rel_get_of_le (by
                rw [Fin.mk_le_mk]
                omega)
            rw [inWindow]
            simp only [decide_eq_true_eq, not_and, not_le]
            intro _
            linarith [hxw.1, hxw.2, hgap]
          omega
      rw [hone]
      omega
    · have hzero : (if inWindow a x = true then 1 else 0) = 0 := if_neg hx
      rw [hzero, Nat.add_zero]
      exact ih hs2 hg2 a

theorem runCalls_inv : ∀ (gaps : List ℚ) (s : RLState) (now : ℚ),
    RLInv s now → (∀ g ∈ gaps, 0 ≤ g) →
    ∃ now2, RLInv (runCalls s now gaps) now2 := by
  intro gaps
  induction gaps with
  | nil =>
    intro s now h _
    exact ⟨_, (checkRateLimit_inv s now h).1⟩
  | cons g gaps ih =>
    intro s now h hg
    obtain ⟨hinv, hle⟩ := checkRateLimit_inv s now h
    have h0 : (0 : ℚ) ≤ g := hg g (List.mem_cons_self g gaps)
    have hinv2 : RLInv (checkRateLimit now s) (lastRec (checkRateLimit now s) + g) :=
      hinv.mono (by linarith)
    exact ih (checkRateLimit now s) _ hinv2 (fun x hx => hg x (List.mem_cons_of_mem g hx))

/-- Claim C4: in every sequential execution of the workflow (each call
happening a nonnegative delay after the previous `check_rate_limit` call
returned), at most `RATE_LIMIT = 5` recorded call timestamps ever fall
inside any closed 60-second sliding window `[a, a + 60]`. -/
theorem C4_rate_limit (start : ℚ) (gaps : List ℚ) (hg : ∀ g ∈ gaps, 0 ≤ g) (a : ℚ) :
    ((rlRun start gaps).hist.countP (inWindow a)) ≤ RATE_LIMIT := by
  have hinit : RLInv ⟨[], []⟩ start := by
    refine ⟨List.sorted_nil, ?_, ?_, ⟨[], rfl, ?_⟩, ?_⟩
    · intro i hi
      simp at hi
    · simp
    · intro t ht
      exact absurd ht (List.not_mem_nil t)
    · intro t ht
      exact absurd ht (List.not_mem_nil t)
  obtain ⟨now2, hinv⟩ := runCalls_inv gaps ⟨[], []⟩ start hinit hg
  exact window_count_le _ hinv.sorted hinv.gap5 a

/-- Witness for C4: six back-to-back calls from time 0. -/
theorem C4_rate_limit_witness :
    ((rlRun 0 [0, 0, 0, 0, 0]).hist.countP (inWindow 0)) ≤ RATE_LIMIT :=
  C4_rate_limit 0 [0, 0, 0, 0, 0]
    (by
      intro g hg
      simp only [List.mem_cons, List.not_mem_nil, or_false] at hg
      rcases hg with h | h | h | h | h <;> simp [h])
    0

end ZaiFi
